import Mathlib

/-!
Shallow embedding of the SebType typing engine (scripts/typing.js, class
`TypingEngine`) and proofs about the specification claims.

Strings are modelled as `List Char`; JS numbers that hold integer values
(timestamps, counters, time limits) as `Int`/`Nat`; the real-valued metric
arithmetic (`Math.round`, divisions in WPM/accuracy) as exact `ℚ` arithmetic;
`Math.random()` as an explicit stream of rationals threaded through the
functions that consume it.
-/

namespace SebType

abbrev Token := List Char

/-- JS `x || d` for an optional numeric field: `null`/`undefined` and `0` are
falsy and replaced by the default. -/
def jsOrInt (o : Option Int) (d : Int) : Int :=
  match o with
  | none => d
  | some v => if v = 0 then d else v

/-- JS `s || d` for an optional string field: `null`/`undefined` and the empty
string are falsy and replaced by the default. -/
def jsOrStr (o : Option (List Char)) (d : List Char) : List Char :=
  match o with
  | none => d
  | some s => if s = [] then d else s

/-- JS `x || 0` applied to an integer-valued expression. -/
def jsOrZero (x : Int) : Int := if x = 0 then 0 else x

/-- `Math.round` on an exact rational: round half away from zero is
`Math.round(x) = Math.floor(x + 0.5)` in JS. -/
def jsRound (q : ℚ) : Int := ⌊q + 1/2⌋

/-- The whitespace characters stripped by `String.prototype.trim` that can
occur in this code base. -/
def isWs (c : Char) : Bool := c = ' ' || c = '\t' || c = '\n' || c = '\r'

/-- JS `value.trim()`: strip leading and trailing whitespace. -/
def jsTrim (l : List Char) : List Char :=
  ((l.dropWhile isWs).reverse.dropWhile isWs).reverse

/-- JS `value.endsWith(' ')`. -/
def endsWithSpace (l : List Char) : Bool := l.getLast? == some ' '

/-- Positional match count: the number of positions `i` below both lengths
where the two strings agree (the loop in `processInput`'s partial branch). -/
def matchCount : List Char → List Char → Nat
  | a :: as, b :: bs => (if a = b then 1 else 0) + matchCount as bs
  | _, _ => 0

/-- `Math.random()` modelled as a stream of rationals with a read position. -/
structure RState where
  stream : Nat → ℚ
  pos : Nat

def nextFloat (r : RState) : ℚ × RState :=
  (r.stream r.pos, ⟨r.stream, r.pos + 1⟩)

/-- JS `String(n)` for a natural number. -/
def natToChars (n : Nat) : List Char := Nat.toDigits 10 n

/-- The default word pool `DEFAULT_WORDS` of scripts/typing.js. -/
def DEFAULT_WORDS : List Token :=
  (["the","and","to","of","a","in","that","it","is","was","i","for","on","you","he","be","with",
    "as","by","at","have","are","this","not","but","had","his","they","from","she","which","or",
    "we","an","there","their","one","all","would","when","who","what","so","up","out","if","about",
    "get","can","like","me","just","him","know","take","into","your","good","some","could","them",
    "see","other","than","then","now","look","only","come","its","over","think","also","back","after",
    "use","two","how","our","work","first","well","way","even","new","want","because","any","these",
    "give","day","most","us"]).map String.toList

/-- The `sampleQuotes` array of `generateWords`'s quotes branch. -/
def sampleQuotes : List Token :=
  (["To be or not to be",
    "I think therefore I am",
    "There is no substitute for hard work",
    "All that glitters is not gold",
    "The only limit to our realization of tomorrow is our doubts of today",
    "Life is what happens when you\x27re busy making other plans",
    "Get busy living or get busy dying"]).map String.toList

/-- `arr.set i y` / swap helper used to model the Fisher-Yates exchange
`[a[i], a[j]] = [a[j], a[i]]` (in-bounds in every reachable call). -/
def listSwap (a : List Token) (i j : Nat) : List Token :=
  let x := a.getD i []
  let y := a.getD j []
  (a.set i y).set j x

/-- The loop of `shuffleArray`: `for (i = len-1; i > 0; i--)` with
`j = Math.floor(Math.random() * (i + 1))`. -/
def fyLoop : Nat → RState → List Token → List Token × RState
  | 0, r, a => (a, r)
  | i + 1, r, a =>
    let p := nextFloat r
    let j := (⌊p.1 * ((i : ℚ) + 2)⌋).toNat
    fyLoop i p.2 (listSwap a (i + 1) j)

/-- `shuffleArray(arr)`: Fisher-Yates on a shallow copy. -/
def shuffleArray (a : List Token) (r : RState) : List Token × RState :=
  fyLoop (a.length - 1) r a

/-- The body of `generateWords`'s numbers branch: `count` iterations, each
drawing `r = Math.random()` to pick a size class and a second random to pick
the numeral. -/
def numbersBuild : Nat → RState → List Token → List Token × RState
  | 0, r, out => (out, r)
  | n + 1, r, out =>
    let p := nextFloat r
    let q := nextFloat p.2
    let tok : Token :=
      if (4 : ℚ)/5 < p.1 then natToChars ((⌊q.1 * 9000⌋).toNat + 100)
      else if (1 : ℚ)/2 < p.1 then natToChars (⌊q.1 * 100⌋).toNat
      else natToChars (⌊q.1 * 10⌋).toNat
    numbersBuild n q.2 (out ++ [tok])

/-- JS `q.split(' ')` (always returns at least one piece). -/
def splitOnSpace : List Char → List (List Char)
  | [] => [[]]
  | c :: rest =>
    let r := splitOnSpace rest
    if c = ' ' then [] :: r
    else
      match r with
      | h :: t => (c :: h) :: t
      | [] => [[c]]

/-- The quotes branch of `generateWords`: pick a random quote, push its
space-separated parts while `out.length < count`.  The outer `while` loop is
modelled with fuel; each iteration pushes at least one part, so fuel `count`
always suffices (proved below). -/
def quotesFill (count : Int) : Nat → RState → List Token → Option (List Token × RState)
  | fuel, r, out =>
    if count ≤ (out.length : Int) then some (out, r)
    else
      match fuel with
      | 0 => none
      | f + 1 =>
        let p := nextFloat r
        let q := sampleQuotes.getD (⌊p.1 * 7⌋).toNat []
        let parts := splitOnSpace q
        quotesFill count f p.2 (out ++ parts.take (count - (out.length : Int)).toNat)

/-- The english branch of `generateWords`: `while (result.length < count)
result.push(...pool)`, modelled with fuel.  With an empty pool the JS loop
never terminates, which surfaces here as `none` for every fuel. -/
def englishFill (pool : List Token) (count : Int) : Nat → List Token → Option (List Token)
  | fuel, acc =>
    if count ≤ (acc.length : Int) then some acc
    else
      match fuel with
      | 0 => none
      | f + 1 => englishFill pool count f (acc ++ pool)

/-- `TypingEngine.generateWords(count)` over an explicit mode, pool and random
stream.  `none` models non-termination of the source loop (only possible in
the english branch with an empty pool). -/
def generateWords (mode : List Char) (pool : List Token) (count : Int) (r : RState) :
    Option (List Token × RState) :=
  if mode = "numbers".toList then
    some (numbersBuild count.toNat r [])
  else if mode = "quotes".toList then
    quotesFill count count.toNat r []
  else
    let sp := shuffleArray pool r
    (englishFill sp.1 count count.toNat []).map (fun res => (res.take count.toNat, sp.2))

/-- A `wordHistory` entry.  The entry pushed by `finish()` carries no
`perfect` key; its absence (an `undefined`, falsy field) is modelled as
`false`. -/
structure HistEntry where
  word : Token
  typed : List Char
  correct : Nat
  perfect : Bool
  timeTaken : Nat
deriving DecidableEq

/-- The persisted best-result record. -/
structure Best where
  wpm : Int
  accuracy : Int
  raw : Int
deriving DecidableEq

/-- The mutable state of a `TypingEngine` instance (configuration fields plus
run state; the event-callback fields and the localStorage key are modelled
outside the state: emitted events are returned by the operations). -/
structure Engine where
  timeLimit : Int
  mode : List Char
  wordsPool : List Token
  seedSize : Int
  spaceCountsAsChar : Bool
  words : List Token
  currentWordIndex : Nat
  currentInput : List Char
  startedAt : Option Int
  endedAt : Option Int
  started : Bool
  finished : Bool
  timeLeft : Int
  typedChars : Nat
  correctChars : Nat
  wordHistory : List HistEntry
  wpmHistory : List Int
  lastTickAt : Option Int
  best : Best

/-- `getElapsedSeconds()`: 0 before start (`!this.startedAt`, so a timestamp
of 0 also counts as unstarted, as in JS), frozen at
`floor((endedAt - startedAt)/1000)` once `endedAt` is set (and nonzero),
live against `now` otherwise. -/
def getElapsedSeconds (e : Engine) (now : Int) : Int :=
  match e.startedAt with
  | none => 0
  | some s =>
    if s = 0 then 0
    else
      match e.endedAt with
      | some en => if en = 0 then Int.fdiv (now - s) 1000 else Int.fdiv (en - s) 1000
      | none => Int.fdiv (now - s) 1000

/-- `getWPM()`. -/
def getWPM (e : Engine) (now : Int) : Int :=
  let elapsed := getElapsedSeconds e now
  if elapsed ≤ 0 then 0
  else jsOrZero (jsRound (((e.correctChars : ℚ) / 5) / ((elapsed : ℚ) / 60)))

/-- `getRawSpeed()`. -/
def getRawSpeed (e : Engine) (now : Int) : Int :=
  let elapsed := getElapsedSeconds e now
  if elapsed ≤ 0 then 0
  else jsOrZero (jsRound (((e.typedChars : ℚ) / 5) / ((elapsed : ℚ) / 60)))

/-- `getAccuracy()`. -/
def getAccuracy (e : Engine) : Int :=
  if e.typedChars = 0 then 100
  else jsOrZero (jsRound (((e.correctChars : ℚ) / (e.typedChars : ℚ)) * 100))

/-- `getCurrentWord()`: `this.words[this.currentWordIndex] || ''`. -/
def getCurrentWord (e : Engine) : Token :=
  e.words.getD e.currentWordIndex []

/-- One element of `getCurrentWordState().chars`; `none` models the empty
string substituted for an out-of-range character. -/
structure CharState where
  target : Option Char
  typed : Option Char
  correct : Bool
deriving DecidableEq

/-- `getCurrentWordState()`. -/
structure WordState where
  word : Token
  typed : List Char
  chars : List CharState
  isComplete : Bool
  correctCount : Nat
deriving DecidableEq

def getCurrentWordState (e : Engine) : WordState :=
  let target := getCurrentWord e
  let typed := e.currentInput
  let chars := (List.range (max target.length typed.length)).map (fun i =>
    let t := target[i]?
    let u := typed[i]?
    ⟨t, u, u.isSome && u == t⟩)
  { word := target
    typed := typed
    chars := chars
    isComplete := typed == target
    correctCount := (chars.filter (fun cs => cs.correct)).length }

/-- Notifications delivered synchronously to the registered callbacks. -/
inductive Event where
  | start
  | tick (timeLeft elapsed wpm : Int)
  | finish (wpm accuracy raw : Int)
  | update (ws : WordState)
deriving DecidableEq

/-- `start()`: records `startedAt`, clears `endedAt`, fires `onStart`; the
internal sampling interval it spawns is modelled by the separate `Op.sample`
step. -/
def startE (now : Int) (e : Engine) : Engine × List Event :=
  if e.started then (e, [])
  else ({ e with started := true, startedAt := some now, endedAt := none }, [Event.start])

/-- `_addHistoryPoint(wpm)`: push, then shift once if the length exceeds
120. -/
def pushCapped (x : Int) (l : List Int) : List Int :=
  let l' := l ++ [x]
  if 120 < l'.length then l'.tail else l'

def addHistoryPoint (w : Int) (e : Engine) : Engine :=
  { e with wpmHistory := pushCapped w e.wpmHistory }

/-- `finish()`. -/
def finishE (now : Int) (e : Engine) : Engine × List Event :=
  if e.finished then (e, [])
  else
    let e1 := { e with finished := true, endedAt := some now, started := false }
    let e2 :=
      if 0 < e1.currentInput.length then
        { e1 with wordHistory :=
            e1.wordHistory ++ [⟨getCurrentWord e1, e1.currentInput, 0, false, 0⟩] }
      else e1
    let w := getWPM e2 now
    let a := getAccuracy e2
    let raw := getRawSpeed e2 now
    let e3 := if e2.best.wpm < w then { e2 with best := ⟨w, a, raw⟩ } else e2
    (e3, [Event.finish w a raw])

/-- `tick(delta = 1)` (the `delta` parameter is unused by the source body;
`lastTickAt` is updated and `timeLeft` recomputed from wall-clock time). -/
def tickE (now : Int) (e : Engine) : Engine × List Event :=
  if !e.started || e.finished then (e, [])
  else
    let s := e.startedAt.getD 0
    let elapsed := Int.fdiv (now - s) 1000
    let e1 := { e with lastTickAt := some now, timeLeft := max 0 (e.timeLimit - elapsed) }
    let ev := Event.tick e1.timeLeft elapsed (getWPM e1 now)
    let e2 := addHistoryPoint (getWPM e1 now) e1
    if e1.timeLeft ≤ 0 then
      let p := finishE now e2
      (p.1, ev :: p.2)
    else (e2, [ev])

/-- The commit branch of `processInput` (input ends with the separator). -/
def commitWord (value : List Char) (e : Engine) : Engine :=
  let typed := jsTrim value
  let target := getCurrentWord e
  let typedIncrement := typed.length + (if e.spaceCountsAsChar then 1 else 0)
  let e2 := { e with typedChars := e.typedChars + typedIncrement }
  let e3 :=
    if typed = target then
      { e2 with
        correctChars :=
          e2.correctChars + (target.length + (if e2.spaceCountsAsChar then 1 else 0))
        wordHistory := e2.wordHistory ++ [(⟨target, typed, target.length, true, 0⟩ : HistEntry)] }
    else
      { e2 with
        correctChars := e2.correctChars + matchCount typed target
        wordHistory :=
          e2.wordHistory ++ [(⟨target, typed, matchCount typed target, false, 0⟩ : HistEntry)] }
  { e3 with currentWordIndex := e3.currentWordIndex + 1, currentInput := [] }

/-- The non-commit branch of `processInput`: add the positive length delta to
`typedChars` (deletions never decrement) and replace the buffer. -/
def noncommitUpdate (value : List Char) (e : Engine) : Engine :=
  let e2 :=
    if e.currentInput.length < value.length then
      { e with typedChars := e.typedChars + (value.length - e.currentInput.length) }
    else e
  { e2 with currentInput := value }

/-- The engine state after the implicit `if (!this.started) this.start()`. -/
def startIf (now : Int) (e : Engine) : Engine :=
  if e.started then e else (startE now e).1

/-- The events fired by the implicit `if (!this.started) this.start()`. -/
def startIfEvents (now : Int) (e : Engine) : List Event :=
  if e.started then [] else (startE now e).2

/-- `processInput(value)`. -/
def processInput (value : List Char) (now : Int) (e : Engine) : Engine × List Event :=
  if e.finished then (e, [])
  else
    let e1 := startIf now e
    let evs := startIfEvents now e
    if endsWithSpace value then
      let e4 := commitWord value e1
      (e4, evs ++ [Event.update (getCurrentWordState e4)])
    else
      let e3 := noncommitUpdate value e1
      (e3, evs ++ [Event.update (getCurrentWordState e3)])

/-- `processKeystroke(ch)`.  The key is the raw string delivered by the key
event: the nine-character string `Backspace`, or a single character. -/
def processKeystroke (ch : List Char) (now : Int) (e : Engine) : Engine × List Event :=
  if e.finished then (e, [])
  else
    let e1 := startIf now e
    let evs := startIfEvents now e
    if ch = "Backspace".toList then
      let e2 := { e1 with currentInput := e1.currentInput.dropLast }
      (e2, evs ++ [Event.update (getCurrentWordState e2)])
    else
      let e2 := { e1 with
        currentInput := e1.currentInput ++ ch
        typedChars := e1.typedChars + 1 }
      if ch = [' '] then
        let q := processInput e2.currentInput now e2
        (q.1, evs ++ q.2)
      else
        (e2, evs ++ [Event.update (getCurrentWordState e2)])

/-- The deterministic core of `resetTest()`, with the freshly generated word
list passed in. -/
def resetWith (ws : List Token) (now : Int) (e : Engine) : Engine :=
  { e with
    words := ws
    currentWordIndex := 0
    currentInput := []
    startedAt := none
    endedAt := none
    started := false
    finished := false
    timeLeft := e.timeLimit
    typedChars := 0
    correctChars := 0
    wordHistory := []
    wpmHistory := [0, 0, 0, 0, 0]
    lastTickAt := some now }

/-- `resetTest()`: regenerate words (threading the random stream) and reset
all run state; `none` models a diverging `generateWords`. -/
def resetTest (r : RState) (now : Int) (e : Engine) : Option (Engine × RState) :=
  (generateWords e.mode e.wordsPool e.seedSize r).map (fun p => (resetWith p.1 now e, p.2))

/-- `setMode(mode)`. -/
def setMode (m : List Char) (r : RState) (now : Int) (e : Engine) : Option (Engine × RState) :=
  resetTest r now { e with mode := m }

/-- `setTimeLimit(sec)`. -/
def setTimeLimit (sec : Int) (r : RState) (now : Int) (e : Engine) : Option (Engine × RState) :=
  resetTest r now { e with timeLimit := sec, timeLeft := sec }

/-- Constructor options (`opts`); `none` models an absent key. -/
structure Opts where
  timeLimit : Option Int := none
  mode : Option (List Char) := none
  words : Option (List Token) := none
  seedSize : Option Int := none
  initialBest : Option Best := none

/-- The engine record as assembled by the constructor body just before its
final `this.resetTest()` call. -/
def initEngine (opts : Opts) : Engine :=
  { timeLimit := jsOrInt opts.timeLimit 60
    mode := jsOrStr opts.mode "english".toList
    wordsPool := (opts.words).getD DEFAULT_WORDS
    seedSize := jsOrInt opts.seedSize 200
    spaceCountsAsChar := true
    words := []
    currentWordIndex := 0
    currentInput := []
    startedAt := none
    endedAt := none
    started := false
    finished := false
    timeLeft := jsOrInt opts.timeLimit 60
    typedChars := 0
    correctChars := 0
    wordHistory := []
    wpmHistory := []
    lastTickAt := none
    best := (opts.initialBest).getD ⟨0, 0, 0⟩ }

/-- `new TypingEngine(opts)`. -/
def mkEngine (opts : Opts) (r : RState) (now : Int) : Option (Engine × RState) :=
  resetTest r now (initEngine opts)

/-- Constructor with the generated word list supplied directly (covering
every possible outcome of the randomized generation). -/
def mkEngineWith (opts : Opts) (ws : List Token) (now : Int) : Engine :=
  resetWith ws now (initEngine opts)

/-- One externally triggered operation on the engine.  For the operations
that regenerate the word list, the freshly generated words appear as an
argument, so that a sequence of `Op`s covers every outcome of the randomized
generation; `sample` is the engine's internal 1-second sampling interval
firing. -/
inductive Op where
  | input (value : List Char) (now : Int)
  | keystroke (ch : List Char) (now : Int)
  | tick (now : Int)
  | finish (now : Int)
  | reset (ws : List Token) (now : Int)
  | setMode (m : List Char) (ws : List Token) (now : Int)
  | setTimeLimit (sec : Int) (ws : List Token) (now : Int)
  | sample (now : Int)

def applyOp (op : Op) (e : Engine) : Engine :=
  match op with
  | .input v now => (processInput v now e).1
  | .keystroke ch now => (processKeystroke ch now e).1
  | .tick now => (tickE now e).1
  | .finish now => (finishE now e).1
  | .reset ws now => resetWith ws now e
  | .setMode m ws now => resetWith ws now { e with mode := m }
  | .setTimeLimit sec ws now => resetWith ws now { e with timeLimit := sec, timeLeft := sec }
  | .sample now => addHistoryPoint (getWPM e now) e

def run (e : Engine) (ops : List Op) : Engine :=
  ops.foldl (fun e op => applyOp op e) e

/-! ## Basic lemmas about the arithmetic helpers -/

theorem jsOrZero_eq (x : Int) : jsOrZero x = x := by
  unfold jsOrZero; split_ifs with h <;> omega

theorem matchCount_le_left (a : List Char) : ∀ b : List Char, matchCount a b ≤ a.length := by
  induction a with
  | nil => intro b; cases b <;> simp [matchCount]
  | cons x xs ih =>
    intro b
    cases b with
    | nil => simp [matchCount]
    | cons y ys =>
      have := ih ys
      simp only [matchCount, List.length_cons]
      split_ifs <;> omega

theorem matchCount_eq_countP (a : List Char) :
    ∀ b : List Char,
      matchCount a b
        = (List.range (min a.length b.length)).countP (fun i => a[i]? == b[i]?) := by
  induction a with
  | nil => intro b; simp [matchCount]
  | cons x xs ih =>
    intro b
    cases b with
    | nil => simp [matchCount]
    | cons y ys =>
      have h := ih ys
      have hcomp : ((fun i => (x :: xs)[i]? == (y :: ys)[i]?) ∘ Nat.succ)
          = (fun i => xs[i]? == ys[i]?) := by
        funext i; simp
      simp only [matchCount, List.length_cons, Nat.succ_min_succ, List.range_succ_eq_map,
        List.countP_cons, List.countP_map, hcomp, List.getElem?_cons_zero]
      rw [h]
      by_cases hxy : x = y
      · simp [hxy]
        omega
      · simp [hxy, beq_iff_eq]

/-! ## Shared concrete instances used by the witnesses -/

/-- A deterministic random stream producing only zeros. -/
def r0 : RState := ⟨fun _ => 0, 0⟩

def optsSmall : Opts := { seedSize := some 1, mode := some ("numbers".toList) }

/-- A small freshly reset engine whose single target word is `the`. -/
def egSample : Engine := mkEngineWith optsSmall ["the".toList] 0

def egFinished : Engine := { egSample with finished := true }

/-- An engine frozen at 30 elapsed seconds with 250 correct characters. -/
def eW : Engine := { egSample with startedAt := some 1000, endedAt := some 31000, correctChars := 250 }

/-! ## C5: WPM formula -/

/-- The spec's formula: `wpm = round((correctCharCount / 5) / (elapsedSeconds / 60))`,
0 if `elapsedSeconds ≤ 0`. -/
def wpmFormula (elapsed : Int) (c : Nat) : Int :=
  if elapsed ≤ 0 then 0 else jsRound (((c : ℚ) / 5) / ((elapsed : ℚ) / 60))

/-- C5: `getWPM` returns `round((correctChars / 5) / (elapsedSeconds / 60))` and 0
whenever `elapsedSeconds ≤ 0`, where `elapsedSeconds` is 0 if not started and is
frozen at the floored `endedAt - startedAt` difference once finished; with
`elapsedSeconds = 30` and `correctChars = 250` the result is 100. -/
theorem getWPM_spec (e : Engine) (now : Int) :
    getWPM e now = wpmFormula (getElapsedSeconds e now) e.correctChars
    ∧ (getElapsedSeconds e now ≤ 0 → getWPM e now = 0)
    ∧ (e.startedAt = none → getElapsedSeconds e now = 0)
    ∧ (∀ s en : Int, e.startedAt = some s → e.endedAt = some en → s ≠ 0 → en ≠ 0 →
        getElapsedSeconds e now = Int.fdiv (en - s) 1000)
    ∧ wpmFormula 30 250 = 100 := by
  refine ⟨?_, ?_, ?_, ?_, ?_⟩
  · simp only [getWPM, wpmFormula, jsOrZero_eq]
  · intro h; unfold getWPM; simp [h]
  · intro h; unfold getElapsedSeconds; simp [h]
  · intro s en hs hen h0 h0'
    unfold getElapsedSeconds
    simp [hs, hen, h0, h0']
  · unfold wpmFormula jsRound
    norm_num

theorem getWPM_spec_witness : getWPM eW 999999 = 100 ∧ getElapsedSeconds eW 999999 = 30 := by
  have h := getWPM_spec eW 999999
  have hel : getElapsedSeconds eW 999999 = Int.fdiv (31000 - 1000) 1000 :=
    h.2.2.2.1 1000 31000 rfl rfl (by decide) (by decide)
  have hel30 : getElapsedSeconds eW 999999 = 30 := by rw [hel]; decide
  refine ⟨?_, hel30⟩
  have h1 := h.1
  rw [hel30] at h1
  rw [h1]
  exact h.2.2.2.2

/-! ## C6: accuracy formula -/

/-- C6: `getAccuracy` returns `round((correctChars / typedChars) * 100)` and exactly
100 whenever `typedChars = 0`. -/
theorem getAccuracy_spec (e : Engine) :
    getAccuracy e =
      (if e.typedChars = 0 then 100
       else jsRound (((e.correctChars : ℚ) / (e.typedChars : ℚ)) * 100))
    ∧ (e.typedChars = 0 → getAccuracy e = 100) := by
  constructor
  · unfold getAccuracy
    split_ifs <;> simp [jsOrZero_eq]
  · intro h; unfold getAccuracy; simp [h]

theorem getAccuracy_spec_witness : getAccuracy egSample = 100 :=
  (getAccuracy_spec egSample).2 rfl

/-! ## C7: finished is frozen -/

/-- C7: once `finished`, `processInput`, `processKeystroke`, `tick` and `finish` all
leave the entire state unchanged (in particular every accumulator) and emit no
notification, so a repeated `finish()` does not re-fire the finish event. -/
theorem finished_noop (e : Engine) (v ch : List Char) (n1 n2 n3 n4 : Int)
    (hf : e.finished = true) :
    processInput v n1 e = (e, []) ∧ processKeystroke ch n2 e = (e, [])
    ∧ tickE n3 e = (e, []) ∧ finishE n4 e = (e, []) := by
  refine ⟨?_, ?_, ?_, ?_⟩
  · simp [processInput, hf]
  · simp [processKeystroke, hf]
  · simp [tickE, hf]
  · simp [finishE, hf]

theorem finished_noop_witness :
    processInput ("a".toList) 1 egFinished = (egFinished, [])
    ∧ finishE 2 egFinished = (egFinished, []) := by
  have h := finished_noop egFinished ("a".toList) ("b".toList) 1 1 1 2 rfl
  exact ⟨h.1, h.2.2.2⟩

/-! ## C4: no range clamping of timeLimit / seedSize -/

def optsNeg : Opts :=
  { timeLimit := some (-5), seedSize := some (-3), mode := some ("numbers".toList) }

/-- C4 counterexample: the engine does not clamp: `setTimeLimit(-5)` stores `-5`,
and constructing with `timeLimit: -5` stores `-5`, both outside the valid range
`timeLimit ≥ 1`. -/
theorem no_clamping_counterexample :
    (setTimeLimit (-5) r0 0 egSample).map (fun p => p.1.timeLimit) = some (-5)
    ∧ (mkEngine optsNeg r0 0).map (fun p => p.1.timeLimit) = some (-5)
    ∧ ¬ (1 : Int) ≤ -5 := by
  refine ⟨by decide, by decide, by decide⟩

/-- C4 amended: the constructor substitutes the defaults 60 and 200 only for
absent-or-zero (JS-falsy) `timeLimit`/`seedSize` via `||`-defaulting, storing
any other value (negative included) unchanged, and `setTimeLimit` stores the
supplied value without any validation. -/
theorem constructor_defaulting (opts : Opts) (r : RState) (now : Int)
    (e' : Engine) (r' : RState) (sec : Int) (e e2 : Engine) (r2 : RState)
    (h : mkEngine opts r now = some (e', r'))
    (h2 : setTimeLimit sec r now e = some (e2, r2)) :
    e'.timeLimit = jsOrInt opts.timeLimit 60
    ∧ e'.seedSize = jsOrInt opts.seedSize 200
    ∧ e2.timeLimit = sec ∧ e2.timeLeft = sec := by
  unfold mkEngine resetTest at h
  rw [Option.map_eq_some'] at h
  obtain ⟨⟨ws, rr⟩, _, hpair⟩ := h
  obtain ⟨he, -⟩ := Prod.mk.injEq .. ▸ hpair
  unfold setTimeLimit resetTest at h2
  rw [Option.map_eq_some'] at h2
  obtain ⟨⟨ws2, rr2⟩, _, hpair2⟩ := h2
  obtain ⟨he2, -⟩ := Prod.mk.injEq .. ▸ hpair2
  subst he he2
  exact ⟨rfl, rfl, rfl, rfl⟩

theorem constructor_defaulting_witness :
    (resetWith [] 0 (initEngine optsNeg)).timeLimit = jsOrInt (some (-5)) 60
    ∧ (resetWith [] 0 (initEngine optsNeg)).seedSize = jsOrInt (some (-3)) 200
    ∧ (resetWith [("0".toList)] 0 { egSample with timeLimit := -5, timeLeft := -5 }).timeLimit = -5 := by
  have h := constructor_defaulting optsNeg r0 0
    (resetWith [] 0 (initEngine optsNeg)) r0 (-5) egSample
    (resetWith [("0".toList)] 0 { egSample with timeLimit := -5, timeLeft := -5 })
    ⟨r0.stream, 2⟩ (by with_unfolding_all rfl) (by with_unfolding_all rfl)
  exact ⟨h.1, h.2.1, h.2.2.1⟩

/-! ## C1: committing a token via processInput -/

/-- Field-level description of `processInput` on an input ending in the
separator (shared between several proofs below). -/
theorem processInput_commit_fields (e : Engine) (value : List Char) (now : Int)
    (hf : e.finished = false) (hsp : e.spaceCountsAsChar = true)
    (hv : endsWithSpace value = true) :
    (processInput value now e).1.typedChars = e.typedChars + ((jsTrim value).length + 1)
    ∧ (jsTrim value = getCurrentWord e →
        (processInput value now e).1.correctChars
            = e.correctChars + ((getCurrentWord e).length + 1)
        ∧ (processInput value now e).1.wordHistory
            = e.wordHistory
              ++ [(⟨getCurrentWord e, jsTrim value, (getCurrentWord e).length, true, 0⟩ : HistEntry)])
    ∧ (jsTrim value ≠ getCurrentWord e →
        (processInput value now e).1.correctChars
            = e.correctChars + matchCount (jsTrim value) (getCurrentWord e)
        ∧ (processInput value now e).1.wordHistory
            = e.wordHistory
              ++ [(⟨getCurrentWord e, jsTrim value,
                    matchCount (jsTrim value) (getCurrentWord e), false, 0⟩ : HistEntry)])
    ∧ matchCount (jsTrim value) (getCurrentWord e)
        = (List.range (min (jsTrim value).length (getCurrentWord e).length)).countP
            (fun i => (jsTrim value)[i]? == (getCurrentWord e)[i]?)
    ∧ (processInput value now e).1.currentWordIndex = e.currentWordIndex + 1
    ∧ (processInput value now e).1.currentInput = [] := by
  have hred : (processInput value now e).1 = commitWord value (startIf now e) := by
    unfold processInput
    simp only [hf, Bool.false_eq_true, if_false, hv, if_true]
  have hbase : (startIf now e).typedChars = e.typedChars
      ∧ (startIf now e).correctChars = e.correctChars
      ∧ (startIf now e).wordHistory = e.wordHistory
      ∧ (startIf now e).currentWordIndex = e.currentWordIndex
      ∧ (startIf now e).words = e.words
      ∧ (startIf now e).spaceCountsAsChar = e.spaceCountsAsChar := by
    unfold startIf startE
    split
    · exact ⟨rfl, rfl, rfl, rfl, rfl, rfl⟩
    · exact ⟨rfl, rfl, rfl, rfl, rfl, rfl⟩
  obtain ⟨ht, hcc, hwh, hwi, hwords, hspc⟩ := hbase
  have hcw : getCurrentWord (startIf now e) = getCurrentWord e := by
    unfold getCurrentWord
    rw [hwords, hwi]
  rw [hred]
  unfold commitWord
  simp only [hspc, hsp, hcw, if_true]
  by_cases hcase : jsTrim value = getCurrentWord e
  · simp only [if_pos hcase]
    refine ⟨by simp [ht], ?_, ?_, matchCount_eq_countP _ _, by simp [hwi], by trivial⟩
    · intro _
      exact ⟨by simp [ht, hcc], by simp [hwh]⟩
    · intro hne
      exact absurd hcase hne
  · simp only [if_neg hcase]
    refine ⟨by simp [ht], ?_, ?_, matchCount_eq_countP _ _, by simp [hwi], by trivial⟩
    · intro h
      exact absurd h hcase
    · intro _
      exact ⟨by simp [ht, hcc], by simp [hwh]⟩

/-- C1: for a non-finished session and an input value ending in the separator,
`processInput` commits the token: with `typed` the trimmed value and `target`
the current word, `typedChars` grows by `typed.length + 1`; on an exact match
`correctChars` grows by `target.length + 1` and a perfect-match entry is
appended, otherwise `correctChars` grows by the number of positions below both
lengths where the strings agree and a partial-match entry is appended; the
cursor advances and the buffer is cleared. -/
theorem commit_spec (e : Engine) (value : List Char) (now : Int)
    (hf : e.finished = false) (hsp : e.spaceCountsAsChar = true)
    (hv : endsWithSpace value = true) :
    (processInput value now e).1.typedChars = e.typedChars + ((jsTrim value).length + 1)
    ∧ (jsTrim value = getCurrentWord e →
        (processInput value now e).1.correctChars
            = e.correctChars + ((getCurrentWord e).length + 1)
        ∧ (processInput value now e).1.wordHistory
            = e.wordHistory
              ++ [(⟨getCurrentWord e, jsTrim value, (getCurrentWord e).length, true, 0⟩ : HistEntry)])
    ∧ (jsTrim value ≠ getCurrentWord e →
        (processInput value now e).1.correctChars
            = e.correctChars + matchCount (jsTrim value) (getCurrentWord e)
        ∧ (processInput value now e).1.wordHistory
            = e.wordHistory
              ++ [(⟨getCurrentWord e, jsTrim value,
                    matchCount (jsTrim value) (getCurrentWord e), false, 0⟩ : HistEntry)])
    ∧ matchCount (jsTrim value) (getCurrentWord e)
        = (List.range (min (jsTrim value).length (getCurrentWord e).length)).countP
            (fun i => (jsTrim value)[i]? == (getCurrentWord e)[i]?)
    ∧ (processInput value now e).1.currentWordIndex = e.currentWordIndex + 1
    ∧ (processInput value now e).1.currentInput = [] :=
  processInput_commit_fields e value now hf hsp hv

theorem commit_spec_witness :
    (processInput ("the ".toList) 5 egSample).1.typedChars = 4
    ∧ (processInput ("the ".toList) 5 egSample).1.correctChars = 4
    ∧ (processInput ("the ".toList) 5 egSample).1.currentWordIndex = 1
    ∧ (processInput ("the ".toList) 5 egSample).1.currentInput = []
    ∧ (processInput ("the ".toList) 5 egSample).1.wordHistory
        = [(⟨"the".toList, "the".toList, 3, true, 0⟩ : HistEntry)] := by
  have h := commit_spec egSample ("the ".toList) 5 rfl rfl rfl
  have hexact := h.2.1 rfl
  refine ⟨h.1.trans (by decide), hexact.1.trans (by decide), h.2.2.2.2.1.trans rfl, h.2.2.2.2.2, ?_⟩
  exact hexact.2.trans (by rfl)

/-! ## C3: the separator keystroke -/

theorem dropWhile_of_no_ws (l : List Char) (h : ∀ x ∈ l, isWs x = false) :
    l.dropWhile isWs = l := by
  cases l with
  | nil => rfl
  | cons a as =>
    rw [List.dropWhile_cons]
    simp [h a (by simp)]

/-- For a word with no whitespace, appending the separator and trimming gives
the word back. -/
theorem jsTrim_concat_space (w : List Char) (hw : ∀ x ∈ w, isWs x = false) :
    jsTrim (w ++ [' ']) = w := by
  cases w with
  | nil => decide
  | cons a as =>
    have ha : isWs a = false := hw a (by simp)
    have has : ∀ x ∈ as.reverse ++ [a], isWs x = false := by
      intro x hx
      rcases List.mem_append.mp hx with h | h
      · exact hw x (List.mem_cons_of_mem _ (List.mem_reverse.mp h))
      · rw [List.mem_singleton.mp h]
        exact ha
    unfold jsTrim
    rw [List.cons_append, List.dropWhile_cons]
    simp only [ha, Bool.false_eq_true, if_false]
    rw [← List.cons_append, List.reverse_append]
    simp only [List.reverse_cons, List.reverse_nil, List.nil_append, List.singleton_append]
    rw [List.dropWhile_cons]
    rw [if_pos (show isWs ' ' = true from by decide)]
    rw [dropWhile_of_no_ws _ has]
    rw [List.reverse_append]
    simp

theorem singleton_ne_backspace (c : Char) : [c] ≠ "Backspace".toList := by
  intro h
  have hlen := congrArg List.length h
  have : ("Backspace".toList).length = 9 := by decide
  simp [this] at hlen

/-- Fields of the state reached by the implicit `start()` call inside
`processInput`/`processKeystroke`. -/
theorem startIf_fields (e : Engine) (now : Int) :
    (startIf now e).typedChars = e.typedChars
    ∧ (startIf now e).correctChars = e.correctChars
    ∧ (startIf now e).wordHistory = e.wordHistory
    ∧ (startIf now e).currentWordIndex = e.currentWordIndex
    ∧ (startIf now e).words = e.words
    ∧ (startIf now e).spaceCountsAsChar = e.spaceCountsAsChar
    ∧ (startIf now e).currentInput = e.currentInput
    ∧ (startIf now e).finished = e.finished := by
  unfold startIf startE
  split
  · exact ⟨rfl, rfl, rfl, rfl, rfl, rfl, rfl, rfl⟩
  · exact ⟨rfl, rfl, rfl, rfl, rfl, rfl, rfl, rfl⟩

/-- A non-separator, non-backspace keystroke: buffer grows by the character and
`typedChars` by one; nothing else that matters changes. -/
theorem processKeystroke_char (e : Engine) (c : Char) (now : Int)
    (hf : e.finished = false) (hc : c ≠ ' ') :
    (processKeystroke [c] now e).1.typedChars = e.typedChars + 1
    ∧ (processKeystroke [c] now e).1.currentInput = e.currentInput ++ [c]
    ∧ (processKeystroke [c] now e).1.finished = false
    ∧ (processKeystroke [c] now e).1.spaceCountsAsChar = e.spaceCountsAsChar := by
  obtain ⟨ht, hcc, hwh, hwi, hwords, hspc, hin, hfin⟩ := startIf_fields e now
  have hb := singleton_ne_backspace c
  have hsep : ([c] : List Char) ≠ [' '] := by
    intro h
    exact hc (List.cons_eq_cons.mp h).1
  unfold processKeystroke
  simp only [hf, Bool.false_eq_true, if_false, if_neg hb, if_neg hsep]
  exact ⟨by simp [ht], by simp [hin], by simp [hfin, hf], by simp [hspc]⟩

/-- The separator keystroke: appends the separator, increments `typedChars` by
one itself, then delegates to the commit path of `processInput`. -/
theorem processKeystroke_space (e : Engine) (now : Int)
    (hf : e.finished = false) (hsp : e.spaceCountsAsChar = true) :
    (processKeystroke [' '] now e).1.typedChars
      = e.typedChars + 1 + ((jsTrim (e.currentInput ++ [' '])).length + 1)
    ∧ (processKeystroke [' '] now e).1.currentInput = []
    ∧ (processKeystroke [' '] now e).1.currentWordIndex = e.currentWordIndex + 1 := by
  obtain ⟨ht, hcc, hwh, hwi, hwords, hspc, hin, hfin⟩ := startIf_fields e now
  have hb := singleton_ne_backspace ' '
  have hfE2 : ({ startIf now e with
      currentInput := (startIf now e).currentInput ++ [' '],
      typedChars := (startIf now e).typedChars + 1 } : Engine).finished = false := by
    show (startIf now e).finished = false
    rw [hfin, hf]
  have hspE2 : ({ startIf now e with
      currentInput := (startIf now e).currentInput ++ [' '],
      typedChars := (startIf now e).typedChars + 1 } : Engine).spaceCountsAsChar = true := by
    show (startIf now e).spaceCountsAsChar = true
    rw [hspc, hsp]
  have hvE2 : endsWithSpace ((startIf now e).currentInput ++ [' ']) = true := by
    unfold endsWithSpace
    simp
  have h := processInput_commit_fields _ ((startIf now e).currentInput ++ [' ']) now
    hfE2 hspE2 hvE2
  have hred : (processKeystroke [' '] now e).1
      = (processInput ((startIf now e).currentInput ++ [' ']) now
          { startIf now e with
            currentInput := (startIf now e).currentInput ++ [' '],
            typedChars := (startIf now e).typedChars + 1 }).1 := by
    unfold processKeystroke
    simp only [hf, Bool.false_eq_true, if_false, if_neg hb, if_pos rfl,
      eq_self_iff_true, if_true]
  rw [hred]
  refine ⟨?_, ?_, ?_⟩
  · refine h.1.trans ?_
    show (startIf now e).typedChars + 1 + _ = _
    rw [ht, hin]
  · exact h.2.2.2.2.2
  · refine h.2.2.2.2.1.trans ?_
    show (startIf now e).currentWordIndex + 1 = _
    rw [hwi]

/-- Running a list of non-whitespace single-character keystrokes. -/
theorem run_chars (now : Int) (w : List Char) :
    ∀ e : Engine, e.finished = false → (∀ x ∈ w, isWs x = false) →
      (run e (w.map (fun x => Op.keystroke [x] now))).finished = false
      ∧ (run e (w.map (fun x => Op.keystroke [x] now))).spaceCountsAsChar = e.spaceCountsAsChar
      ∧ (run e (w.map (fun x => Op.keystroke [x] now))).typedChars = e.typedChars + w.length
      ∧ (run e (w.map (fun x => Op.keystroke [x] now))).currentInput = e.currentInput ++ w := by
  induction w with
  | nil =>
    intro e hf _
    exact ⟨hf, rfl, rfl, by simp [run]⟩
  | cons c cs ih =>
    intro e hf hw
    have hc : c ≠ ' ' := by
      intro h
      have := hw c (by simp)
      rw [h] at this
      exact absurd this (by decide)
    have h1 := processKeystroke_char e c now hf hc
    have hrun : run e ((c :: cs).map (fun x => Op.keystroke [x] now))
        = run (processKeystroke [c] now e).1 (cs.map (fun x => Op.keystroke [x] now)) := by
      simp [run, applyOp]
    obtain ⟨ihf, ihsp, iht, ihin⟩ :=
      ih (processKeystroke [c] now e).1 h1.2.2.1 (fun x hx => hw x (by simp [hx]))
    rw [hrun]
    refine ⟨ihf, ihsp.trans h1.2.2.2, ?_, ?_⟩
    · rw [iht, h1.1, List.length_cons]
      omega
    · rw [ihin, h1.2.1, List.append_assoc, List.singleton_append]

/-- C3 counterexample: with target `the` and an empty buffer, the four
keystrokes `t`, `h`, `e`, separator raise `typedChars` to 8, while the claim
(three per-character increments plus `typed.length + 1 = 4` from the delegated
commit and nothing more) predicts 7: the separator keystroke also performs its
own increment before delegating. -/
theorem keystroke_double_count_counterexample :
    (run egSample (("the".toList).map (fun c => Op.keystroke [c] 5)
        ++ [Op.keystroke [' '] 5])).typedChars = 8
    ∧ (8 : Nat) ≠ 3 + (3 + 1) := by
  constructor
  · decide
  · decide

/-- C3 corrected: the separator keystroke appends the separator and delegates
to the commit path of `processInput`, but it first performs its own
`typedChars` increment like any other character; hence typing a
whitespace-free word `w` character-by-character and committing it with a
separator keystroke raises `typedChars` by `2 * |w| + 2` in total
(`|w|` per-character increments, one increment for the separator keystroke
itself, and `|w| + 1` from the delegated commit), not `2 * |w| + 1`. -/
theorem keystroke_spec (e : Engine) (c : Char) (w : List Char) (now : Int)
    (hf : e.finished = false) (hsp : e.spaceCountsAsChar = true)
    (hc : c ≠ ' ') (hw : ∀ x ∈ w, isWs x = false) (hin : e.currentInput = []) :
    ((processKeystroke [c] now e).1.typedChars = e.typedChars + 1
      ∧ (processKeystroke [c] now e).1.currentInput = e.currentInput ++ [c])
    ∧ ((processKeystroke [' '] now e).1.typedChars
        = e.typedChars + 1 + ((jsTrim (e.currentInput ++ [' '])).length + 1)
      ∧ (processKeystroke [' '] now e).1.currentInput = []
      ∧ (processKeystroke [' '] now e).1.currentWordIndex = e.currentWordIndex + 1)
    ∧ (run e (w.map (fun x => Op.keystroke [x] now) ++ [Op.keystroke [' '] now])).typedChars
        = e.typedChars + (2 * w.length + 2) := by
  have h1 := processKeystroke_char e c now hf hc
  have h2 := processKeystroke_space e now hf hsp
  refine ⟨⟨h1.1, h1.2.1⟩, h2, ?_⟩
  have hsplit : run e (w.map (fun x => Op.keystroke [x] now) ++ [Op.keystroke [' '] now])
      = (processKeystroke [' '] now (run e (w.map (fun x => Op.keystroke [x] now)))).1 := by
    simp [run, List.foldl_append, applyOp]
  obtain ⟨hf', hsp', ht', hin'⟩ := run_chars now w e hf hw
  rw [hin] at hin'
  have h3 := processKeystroke_space (run e (w.map (fun x => Op.keystroke [x] now))) now hf'
    (hsp'.trans hsp)
  rw [hsplit, h3.1, ht', hin']
  simp only [List.nil_append] at *
  rw [jsTrim_concat_space w hw]
  omega

theorem keystroke_spec_witness :
    (run egSample (("hi".toList).map (fun x => Op.keystroke [x] 5)
        ++ [Op.keystroke [' '] 5])).typedChars
      = egSample.typedChars + (2 * ("hi".toList).length + 2) :=
  (keystroke_spec egSample 'x' ("hi".toList) 5 rfl rfl (by decide) (by decide) rfl).2.2

/-! ## C2: correctChars ≤ typedChars is an invariant -/

/-- The counter invariant of the data model. -/
def countsInv (e : Engine) : Prop := e.correctChars ≤ e.typedChars

theorem commitWord_inv (value : List Char) (e : Engine) (h : countsInv e) :
    countsInv (commitWord value e) := by
  unfold countsInv at h
  unfold commitWord countsInv
  by_cases hcase : jsTrim value = getCurrentWord e
  · simp only [if_pos hcase]
    show e.correctChars + _ ≤ e.typedChars + _
    rw [← hcase]
    split_ifs <;> omega
  · simp only [if_neg hcase]
    show e.correctChars + _ ≤ e.typedChars + _
    have hm := matchCount_le_left (jsTrim value) (getCurrentWord e)
    split_ifs <;> omega

theorem noncommitUpdate_inv (value : List Char) (e : Engine) (h : countsInv e) :
    countsInv (noncommitUpdate value e) := by
  unfold countsInv at h
  unfold noncommitUpdate countsInv
  split_ifs with hlt
  · show e.correctChars ≤ e.typedChars + _
    omega
  · exact h

theorem startIf_inv (now : Int) (e : Engine) (h : countsInv e) :
    countsInv (startIf now e) := by
  obtain ⟨ht, hcc, -⟩ := startIf_fields e now
  unfold countsInv
  rw [ht, hcc]
  exact h

theorem processInput_inv (value : List Char) (now : Int) (e : Engine) (h : countsInv e) :
    countsInv (processInput value now e).1 := by
  unfold processInput
  split
  · exact h
  · split
    · exact commitWord_inv _ _ (startIf_inv now e h)
    · exact noncommitUpdate_inv _ _ (startIf_inv now e h)

theorem processKeystroke_inv (ch : List Char) (now : Int) (e : Engine) (h : countsInv e) :
    countsInv (processKeystroke ch now e).1 := by
  unfold processKeystroke
  split
  · exact h
  · have h1 := startIf_inv now e h
    split
    · unfold countsInv at h1 ⊢
      exact h1
    · split
      · refine processInput_inv _ now _ ?_
        unfold countsInv at h1 ⊢
        show (startIf now e).correctChars ≤ (startIf now e).typedChars + 1
        omega
      · unfold countsInv at h1 ⊢
        show (startIf now e).correctChars ≤ (startIf now e).typedChars + 1
        omega

theorem finishE_counts (now : Int) (e : Engine) :
    (finishE now e).1.typedChars = e.typedChars
    ∧ (finishE now e).1.correctChars = e.correctChars := by
  unfold finishE
  split
  · exact ⟨rfl, rfl⟩
  · refine ⟨?_, ?_⟩ <;> (dsimp only; split <;> split <;> rfl)

theorem finishE_inv (now : Int) (e : Engine) (h : countsInv e) :
    countsInv (finishE now e).1 := by
  have hc := finishE_counts now e
  unfold countsInv at h ⊢
  rw [hc.1, hc.2]
  exact h

theorem tickE_inv (now : Int) (e : Engine) (h : countsInv e) :
    countsInv (tickE now e).1 := by
  unfold tickE
  split
  · exact h
  · dsimp only
    split
    · exact finishE_inv now _ h
    · exact h

theorem resetWith_inv (ws : List Token) (now : Int) (e : Engine) :
    countsInv (resetWith ws now e) := by
  unfold countsInv resetWith
  exact Nat.le_refl 0

theorem applyOp_inv (op : Op) (e : Engine) (h : countsInv e) : countsInv (applyOp op e) := by
  cases op with
  | input v now => exact processInput_inv v now e h
  | keystroke ch now => exact processKeystroke_inv ch now e h
  | tick now => exact tickE_inv now e h
  | finish now =>
    have hc := finishE_counts now e
    unfold countsInv
    show (finishE now e).1.correctChars ≤ (finishE now e).1.typedChars
    rw [hc.1, hc.2]
    exact h
  | reset ws now => exact resetWith_inv ws now e
  | setMode m ws now => exact resetWith_inv ws now _
  | setTimeLimit sec ws now => exact resetWith_inv ws now _
  | sample now => exact h

theorem run_inv (ops : List Op) : ∀ e : Engine, countsInv e → countsInv (run e ops) := by
  induction ops with
  | nil => intro e h; exact h
  | cons op ops ih =>
    intro e h
    exact ih (applyOp op e) (applyOp_inv op e h)

/-- C2: starting from any constructed engine, `correctChars ≤ typedChars` holds
after every sequence of operations (`submitInput`, `submitKeystroke`, `tick`,
`finish`, `reset`, `setMode`, `setTimeLimit`, plus the internal sampler), and
hence after every prefix of any such sequence. -/
theorem counts_invariant (opts : Opts) (ws : List Token) (n0 : Int) (ops : List Op) :
    (run (mkEngineWith opts ws n0) ops).correctChars
      ≤ (run (mkEngineWith opts ws n0) ops).typedChars :=
  run_inv ops (mkEngineWith opts ws n0) (resetWith_inv ws n0 (initEngine opts))

/-! ## C8: the sample history is capped at 120 -/

theorem pushCapped_len (x : Int) (l : List Int) (h : l.length ≤ 120) :
    (pushCapped x l).length ≤ 120 := by
  unfold pushCapped
  dsimp only
  split_ifs with hlen <;> simp_all

/-- The history bound invariant. -/
def histInv (e : Engine) : Prop := e.wpmHistory.length ≤ 120

theorem commitWord_hist (value : List Char) (e : Engine) :
    (commitWord value e).wpmHistory = e.wpmHistory := by
  unfold commitWord
  dsimp only
  split_ifs <;> rfl

theorem noncommitUpdate_hist (value : List Char) (e : Engine) :
    (noncommitUpdate value e).wpmHistory = e.wpmHistory := by
  unfold noncommitUpdate
  dsimp only
  split_ifs <;> rfl

theorem startIf_hist (now : Int) (e : Engine) : (startIf now e).wpmHistory = e.wpmHistory := by
  unfold startIf startE
  split
  · rfl
  · rfl

theorem processInput_hist (value : List Char) (now : Int) (e : Engine) :
    (processInput value now e).1.wpmHistory = e.wpmHistory := by
  unfold processInput
  split
  · rfl
  · split
    · rw [commitWord_hist, startIf_hist]
    · rw [noncommitUpdate_hist, startIf_hist]

theorem processKeystroke_hist (ch : List Char) (now : Int) (e : Engine) :
    (processKeystroke ch now e).1.wpmHistory = e.wpmHistory := by
  unfold processKeystroke
  split
  · rfl
  · split
    · rw [show ({ startIf now e with
          currentInput := (startIf now e).currentInput.dropLast } : Engine).wpmHistory
            = (startIf now e).wpmHistory from rfl, startIf_hist]
    · split
      · rw [processInput_hist]
        exact startIf_hist now e
      · rw [show ({ startIf now e with
            currentInput := (startIf now e).currentInput ++ ch,
            typedChars := (startIf now e).typedChars + 1 } : Engine).wpmHistory
              = (startIf now e).wpmHistory from rfl, startIf_hist]

theorem finishE_hist (now : Int) (e : Engine) :
    (finishE now e).1.wpmHistory = e.wpmHistory := by
  unfold finishE
  split
  · rfl
  · dsimp only
    split <;> split <;> rfl

theorem tickE_hist (now : Int) (e : Engine) (h : histInv e) : histInv (tickE now e).1 := by
  unfold tickE
  split
  · exact h
  · dsimp only
    split
    · unfold histInv
      rw [finishE_hist]
      exact pushCapped_len _ _ h
    · exact pushCapped_len _ _ h

theorem applyOp_hist (op : Op) (e : Engine) (h : histInv e) : histInv (applyOp op e) := by
  cases op with
  | input v now =>
    show histInv (processInput v now e).1
    unfold histInv
    rw [processInput_hist]
    exact h
  | keystroke ch now =>
    show histInv (processKeystroke ch now e).1
    unfold histInv
    rw [processKeystroke_hist]
    exact h
  | tick now => exact tickE_hist now e h
  | finish now =>
    show histInv (finishE now e).1
    unfold histInv
    rw [finishE_hist]
    exact h
  | reset ws now =>
    show histInv (resetWith ws now e)
    unfold histInv resetWith
    simp
  | setMode m ws now =>
    show histInv (resetWith ws now { e with mode := m })
    unfold histInv resetWith
    simp
  | setTimeLimit sec ws now =>
    show histInv (resetWith ws now { e with timeLimit := sec, timeLeft := sec })
    unfold histInv resetWith
    simp
  | sample now => exact pushCapped_len _ _ h

theorem run_hist (ops : List Op) : ∀ e : Engine, histInv e → histInv (run e ops) := by
  induction ops with
  | nil => intro e h; exact h
  | cons op ops ih =>
    intro e h
    exact ih (applyOp op e) (applyOp_hist op e h)

/-- C8: starting from any constructed engine, `wpmHistory` never exceeds 120
entries after any sequence of operations (sampler appends included), and an
append onto a full 120-entry history evicts the oldest entry. -/
theorem sample_history_bounded (opts : Opts) (ws : List Token) (n0 : Int) (ops : List Op) :
    (run (mkEngineWith opts ws n0) ops).wpmHistory.length ≤ 120
    ∧ ∀ (l : List Int) (x : Int), l.length = 120 → pushCapped x l = l.tail ++ [x] := by
  constructor
  · refine run_hist ops (mkEngineWith opts ws n0) ?_
    unfold histInv mkEngineWith resetWith
    simp
  · intro l x hl
    unfold pushCapped
    have hne : l ≠ [] := by
      intro h
      rw [h] at hl
      simp at hl
    rw [if_pos (by simp [hl])]
    cases l with
    | nil => exact absurd rfl hne
    | cons a as => simp

theorem sample_history_bounded_witness :
    pushCapped 7 (List.replicate 120 0) = (List.replicate 120 0).tail ++ [7]
    ∧ (run (mkEngineWith optsSmall ["the".toList] 0) []).wpmHistory.length ≤ 120 := by
  have h := sample_history_bounded optsSmall ["the".toList] 0 []
  exact ⟨h.2 (List.replicate 120 0) 7 (by simp), h.1⟩

/-! ## C9: setMode / setTimeLimit perform a full reset -/

/-- C9: `setMode` and `setTimeLimit` update their field and immediately perform
a full reset: the resulting state is idle (not started, not finished, no
timestamps), the cursor and buffer and both accumulators are cleared, and
`words` is the output of `generateWords` under the new configuration. -/
theorem setters_reset (e : Engine) (m : List Char) (sec : Int) (r : RState) (now : Int) :
    (∀ (e' : Engine) (r' : RState), setMode m r now e = some (e', r') →
      e'.mode = m ∧ e'.started = false ∧ e'.finished = false
      ∧ e'.currentWordIndex = 0 ∧ e'.currentInput = []
      ∧ e'.typedChars = 0 ∧ e'.correctChars = 0
      ∧ e'.startedAt = none ∧ e'.endedAt = none
      ∧ generateWords m e.wordsPool e.seedSize r = some (e'.words, r'))
    ∧ (∀ (e' : Engine) (r' : RState), setTimeLimit sec r now e = some (e', r') →
      e'.timeLimit = sec ∧ e'.timeLeft = sec ∧ e'.started = false ∧ e'.finished = false
      ∧ e'.currentWordIndex = 0 ∧ e'.currentInput = []
      ∧ e'.typedChars = 0 ∧ e'.correctChars = 0
      ∧ generateWords e.mode e.wordsPool e.seedSize r = some (e'.words, r')) := by
  constructor
  · intro e' r' h
    unfold setMode resetTest at h
    rw [Option.map_eq_some'] at h
    obtain ⟨⟨ws, rr⟩, hg, hpair⟩ := h
    obtain ⟨he, hr⟩ := Prod.mk.injEq .. ▸ hpair
    subst he
    subst hr
    exact ⟨rfl, rfl, rfl, rfl, rfl, rfl, rfl, rfl, rfl, hg⟩
  · intro e' r' h
    unfold setTimeLimit resetTest at h
    rw [Option.map_eq_some'] at h
    obtain ⟨⟨ws, rr⟩, hg, hpair⟩ := h
    obtain ⟨he, hr⟩ := Prod.mk.injEq .. ▸ hpair
    subst he
    subst hr
    exact ⟨rfl, rfl, rfl, rfl, rfl, rfl, rfl, rfl, hg⟩

theorem setters_reset_witness :
    (resetWith [("0".toList)] 5 { egSample with mode := "numbers".toList }).currentWordIndex = 0
    ∧ (resetWith [("0".toList)] 5 { egSample with mode := "numbers".toList }).typedChars = 0
    ∧ (resetWith [("0".toList)] 5 { egSample with mode := "numbers".toList }).started = false
    ∧ (resetWith [("0".toList)] 5 { egSample with mode := "numbers".toList }).finished = false
    ∧ generateWords ("numbers".toList) egSample.wordsPool egSample.seedSize r0
        = some ((resetWith [("0".toList)] 5 { egSample with mode := "numbers".toList }).words,
            ⟨r0.stream, 2⟩) := by
  have h := (setters_reset egSample ("numbers".toList) 0 r0 5).1
    (resetWith [("0".toList)] 5 { egSample with mode := "numbers".toList }) ⟨r0.stream, 2⟩
    (by with_unfolding_all rfl)
  exact ⟨h.2.2.2.1, h.2.2.2.2.2.1, h.2.1, h.2.2.1, h.2.2.2.2.2.2.2.2.2⟩

/-! ## C10: generateWords termination and length -/

theorem numbersBuild_len (n : Nat) : ∀ (r : RState) (out : List Token),
    (numbersBuild n r out).1.length = out.length + n := by
  induction n with
  | zero =>
    intro r out
    rfl
  | succ k ih =>
    intro r out
    unfold numbersBuild
    dsimp only
    rw [ih]
    simp [List.length_append]
    omega

theorem splitOnSpace_ne_nil (l : List Char) : splitOnSpace l ≠ [] := by
  induction l with
  | nil => simp [splitOnSpace]
  | cons c rest ih =>
    unfold splitOnSpace
    dsimp only
    split_ifs
    · simp
    · cases hsp : splitOnSpace rest with
      | nil => exact absurd hsp ih
      | cons hh tt =>
        simp

theorem quotesFill_some (count : Int) (fuel : Nat) :
    ∀ (out : List Token) (r : RState),
    (out.length : Int) ≤ count → count ≤ (out.length : Int) + fuel →
    ∃ res : List Token × RState, quotesFill count fuel r out = some res
      ∧ ((res.1).length : Int) = count := by
  induction fuel with
  | zero =>
    intro out r h1 h2
    have heq : (out.length : Int) = count := le_antisymm h1 (by simpa using h2)
    refine ⟨(out, r), ?_, heq⟩
    unfold quotesFill
    rw [if_pos (by omega)]
  | succ f ih =>
    intro out r h1 h2
    by_cases hcond : count ≤ (out.length : Int)
    · refine ⟨(out, r), ?_, le_antisymm h1 hcond⟩
      unfold quotesFill
      rw [if_pos hcond]
    · push_neg at hcond
      have hpne : splitOnSpace (sampleQuotes.getD (⌊(nextFloat r).1 * 7⌋).toNat []) ≠ [] :=
        splitOnSpace_ne_nil _
      have hppos : 1 ≤ (splitOnSpace (sampleQuotes.getD (⌊(nextFloat r).1 * 7⌋).toNat [])).length :=
        List.length_pos.mpr hpne
    -- the appended chunk has length min k parts.length, at least 1, at most k
      have hlen : (out ++ (splitOnSpace (sampleQuotes.getD (⌊(nextFloat r).1 * 7⌋).toNat [])).take
            (count - (out.length : Int)).toNat).length
          = out.length
            + min (count - (out.length : Int)).toNat
                (splitOnSpace (sampleQuotes.getD (⌊(nextFloat r).1 * 7⌋).toNat [])).length := by
        simp [List.length_take]
      have h1' : (((out ++ (splitOnSpace (sampleQuotes.getD (⌊(nextFloat r).1 * 7⌋).toNat [])).take
            (count - (out.length : Int)).toNat).length : Nat) : Int) ≤ count := by
        rw [hlen]
        push_cast
        omega
      have h2' : count ≤ (((out ++ (splitOnSpace
            (sampleQuotes.getD (⌊(nextFloat r).1 * 7⌋).toNat [])).take
            (count - (out.length : Int)).toNat).length : Nat) : Int) + f := by
        rw [hlen]
        push_cast
        omega
      obtain ⟨res, hres, hreslen⟩ := ih _ (nextFloat r).2 h1' h2'
      refine ⟨res, ?_, hreslen⟩
      unfold quotesFill
      rw [if_neg (by omega)]
      exact hres

theorem englishFill_some (pool : List Token) (count : Int) (fuel : Nat) :
    ∀ acc : List Token, 1 ≤ pool.length → count ≤ (acc.length : Int) + fuel →
    ∃ res : List Token, englishFill pool count fuel acc = some res
      ∧ count ≤ (res.length : Int) := by
  induction fuel with
  | zero =>
    intro acc hp h
    refine ⟨acc, ?_, by simpa using h⟩
    unfold englishFill
    rw [if_pos (by simpa using h)]
  | succ f ih =>
    intro acc hp h
    by_cases hcond : count ≤ (acc.length : Int)
    · refine ⟨acc, ?_, hcond⟩
      unfold englishFill
      rw [if_pos hcond]
    · obtain ⟨res, hres, hlen⟩ := ih (acc ++ pool) hp (by
        rw [List.length_append]
        push_cast
        omega)
      refine ⟨res, ?_, hlen⟩
      unfold englishFill
      rw [if_neg hcond]
      exact hres

theorem englishFill_none (count : Int) (fuel : Nat) :
    ∀ acc : List Token, (acc.length : Int) < count →
      englishFill [] count fuel acc = none := by
  induction fuel with
  | zero =>
    intro acc h
    unfold englishFill
    rw [if_neg (by omega)]
  | succ f ih =>
    intro acc h
    unfold englishFill
    rw [if_neg (by omega)]
    dsimp only
    rw [List.append_nil]
    exact ih acc h

theorem listSwap_len (a : List Token) (i j : Nat) : (listSwap a i j).length = a.length := by
  unfold listSwap
  simp

theorem fyLoop_len (n : Nat) : ∀ (r : RState) (a : List Token),
    (fyLoop n r a).1.length = a.length := by
  induction n with
  | zero =>
    intro r a
    rfl
  | succ k ih =>
    intro r a
    unfold fyLoop
    dsimp only
    rw [ih, listSwap_len]

/-- C10: for every `count ≥ 1` (and a random stream in the unit interval, the
only streams `Math.random` produces), `generateWords` terminates with exactly
`count` tokens in numbers and quotes mode unconditionally, and in english
(default) mode whenever the word pool is non-empty; with an empty pool the
english generation loop never terminates (`none` for every fuel). -/
theorem generateWords_spec (pool : List Token) (count : Int) (r : RState)
    (_hr : ∀ i, 0 ≤ r.stream i ∧ r.stream i < 1) (hc : 1 ≤ count) :
    (∃ (out : List Token) (r' : RState),
      generateWords ("numbers".toList) pool count r = some (out, r')
      ∧ (out.length : Int) = count)
    ∧ (∃ (out : List Token) (r' : RState),
      generateWords ("quotes".toList) pool count r = some (out, r')
      ∧ (out.length : Int) = count)
    ∧ (pool ≠ [] → ∃ (out : List Token) (r' : RState),
      generateWords ("english".toList) pool count r = some (out, r')
      ∧ (out.length : Int) = count)
    ∧ (pool = [] → generateWords ("english".toList) pool count r = none) := by
  refine ⟨?_, ?_, ?_, ?_⟩
  · refine ⟨(numbersBuild count.toNat r []).1, (numbersBuild count.toNat r []).2, ?_, ?_⟩
    · unfold generateWords
      rw [if_pos rfl, Prod.mk.eta]
    · rw [numbersBuild_len]
      simp
      omega
  · obtain ⟨⟨out, r'⟩, hq, hlen⟩ := quotesFill_some count count.toNat [] r
      (by simp only [List.length_nil, Nat.cast_zero]; omega)
      (by simp only [List.length_nil, Nat.cast_zero, zero_add]; omega)
    refine ⟨out, r', ?_, hlen⟩
    unfold generateWords
    rw [if_neg (by decide), if_pos rfl]
    exact hq
  · intro hp
    have hlen1 : 1 ≤ pool.length := List.length_pos.mpr hp
    have hshlen : (shuffleArray pool r).1.length = pool.length := fyLoop_len _ r pool
    obtain ⟨res, hres, hreslen⟩ := englishFill_some (shuffleArray pool r).1 count count.toNat []
      (by rw [hshlen]; exact hlen1)
      (by simp only [List.length_nil, Nat.cast_zero, zero_add]; omega)
    refine ⟨res.take count.toNat, (shuffleArray pool r).2, ?_, ?_⟩
    · unfold generateWords
      rw [if_neg (by decide), if_neg (by decide)]
      dsimp only
      rw [hres]
      rfl
    · rw [List.length_take]
      have hle : count.toNat ≤ res.length := by omega
      rw [min_eq_left hle]
      omega
  · intro hp
    subst hp
    unfold generateWords
    rw [if_neg (by decide), if_neg (by decide)]
    dsimp only
    rw [show (shuffleArray ([] : List Token) r).1 = [] from rfl]
    rw [englishFill_none count count.toNat [] (by simpa using hc)]
    rfl

theorem generateWords_spec_witness :
    generateWords ("english".toList) [] 2 r0 = none
    ∧ (generateWords ("numbers".toList) [] 2 r0).map (fun p => p.1.length) = some 2 := by
  have h := generateWords_spec [] 2 r0
    (by intro i; exact ⟨le_refl 0, by norm_num [r0]⟩) (by norm_num)
  refine ⟨h.2.2.2 rfl, ?_⟩
  obtain ⟨out, r', hg, hlen⟩ := h.1
  rw [hg]
  simp only [Option.map_some']
  congr 1
  omega

end SebType
